import Mathlib

/-!
Shallow embedding of the analysis pipeline of `mie-lab/LBS2019_graphs`:
the per-cluster significance characterization (`cluster_characteristics` in
`3_analysis/analyze_graph_vs_raw.py`), the normalize-and-cluster wrapper
(`normalize_and_cluster` in `3_analysis/clustering.py`), the chi-square
comparison (`print_chisquare` / `barplot_clusters` in `3_analysis/plotting.py`),
the feature-importance ranking (`get_important_features`), and the bounded
retry loop of `draw_smopy_basemap` in `activity_graphs_utils.py`.

External library calls (`scipy.stats.mannwhitneyu`, `sklearn.cluster.KMeans`,
the chi-square survival function inside `scipy.stats.chi2_contingency`,
`sklearn.ensemble.RandomForestClassifier`) are modelled as oracle parameters;
the repository's own control flow around them is translated statement by
statement. Machine floats are modelled as rationals, with IEEE NaN made
explicit where the code can produce or compare it.
-/

/-- Association-list lookup by key (the behaviour of a Python dict /
pandas column lookup restricted to the operations the code performs). -/
def alookup {α β : Type} [DecidableEq α] (k : α) : List (α × β) → Option β
  | [] => none
  | (a, b) :: t => if a = k then some b else alookup k t

/-- Whether `needle` is an initial segment of `hay` (character lists). -/
def strStartsWith : List Char → List Char → Bool
  | [], _ => true
  | _ :: _, [] => false
  | a :: as, b :: bs => a == b && strStartsWith as bs

/-- Python's substring containment `needle in hay`, on character lists. -/
def hasSubL (needle : List Char) : List Char → Bool
  | [] => strStartsWith needle []
  | c :: t => strStartsWith needle (c :: t) || hasSubL needle t

/-- Python's substring containment `needle in hay` for strings. -/
def strHasSub (hay needle : String) : Bool :=
  hasSubL needle.data hay.data

/-- Insert a value into a strictly sorted list, keeping it strictly sorted
(duplicates collapse). Helper for `uniqueSorted`. -/
def insertUnique (x : ℚ) : List ℚ → List ℚ
  | [] => [x]
  | y :: ys => if x < y then x :: y :: ys else if x = y then y :: ys else y :: insertUnique x ys

/-- Model of `np.unique`: the sorted list of distinct values. -/
def uniqueSorted (l : List ℚ) : List ℚ := l.foldr insertUnique []

/-- Model of `np.mean` of a 1-d array: NaN (`none`) on an empty array, else the
arithmetic mean. -/
def floatMean (l : List ℚ) : Option ℚ :=
  if l.isEmpty then none else some (l.sum / (l.length : ℚ))

/-- IEEE `<` on possibly-NaN values: any comparison involving NaN is false. -/
def floatLt : Option ℚ → Option ℚ → Bool
  | some x, some y => decide (x < y)
  | _, _ => false

/-- A p-value as returned by a scipy test: a float that may be NaN. -/
inductive PVal
  | nan
  | val (q : ℚ)
deriving DecidableEq

/-- IEEE comparison `p < c` of a p-value against a constant: false for NaN. -/
def PVal.ltb : PVal → ℚ → Bool
  | nan, _ => false
  | val q, c => decide (q < c)

/-- A direction tag recorded by the per-cluster significance test. -/
inductive Dir
  | high
  | low
deriving DecidableEq

/-- A pandas DataFrame as the code uses it: an ordered list of named numeric
columns (all the code's accesses are by column name, row-aligned). -/
structure DF where
  cols : List (String × List ℚ)
deriving DecidableEq

/-- Column read `features[name]`: the values of a named column (the code only reads
columns that exist; a missing name yields the empty column here). -/
def getCol (d : DF) (name : String) : List ℚ :=
  (alookup name d.cols).getD []

/-- Column write `features[name] = vals`: pandas column assignment; replaces the column
in place if the name exists, else appends it as the last column. -/
def setCol (d : DF) (name : String) (vals : List ℚ) : DF :=
  if (d.cols.map Prod.fst).contains name then
    ⟨d.cols.map (fun nc => if nc.1 = name then (name, vals) else nc)⟩
  else
    ⟨d.cols ++ [(name, vals)]⟩

/-- Selection `features.loc[features["cluster"] == cluster, column]`: the values of
`col` on the rows whose cluster label equals `c`. -/
def thisVals (d : DF) (c : ℚ) (col : String) : List ℚ :=
  ((getCol d "cluster").zip (getCol d col)).filterMap
    (fun p => if p.1 = c then some p.2 else none)

/-- Selection `features.loc[features["cluster"] != cluster, column]`: the values of
`col` on the rows whose cluster label differs from `c`. -/
def otherVals (d : DF) (c : ℚ) (col : String) : List ℚ :=
  ((getCol d "cluster").zip (getCol d col)).filterMap
    (fun p => if p.1 = c then none else some p.2)

/-- The column filter in `cluster_characteristics`:
`"waiting_time" in column and column != "waiting_time_mean"`. -/
def excludedCol (col : String) : Bool :=
  strHasSub col "waiting_time" && decide (col ≠ "waiting_time_mean")

/-- The body of the inner loop of `cluster_characteristics` for one cluster
`c` and one column name `col`: skip the `cluster` column and the excluded
waiting-time columns, run the Mann-Whitney U test (`mwu` is the
`scipy.stats.mannwhitneyu` oracle), compute the direction from the two
means with IEEE semantics, and record the direction iff `p_value < 0.05`. -/
def processColumn (mwu : List ℚ → List ℚ → PVal) (d : DF) (c : ℚ) (col : String) : Option Dir :=
  if col = "cluster" then none
  else if excludedCol col then none
  else
    let this_cluster := thisVals d c col
    let other_clusters := otherVals d c col
    let p_value := mwu this_cluster other_clusters
    let direction := if floatLt (floatMean this_cluster) (floatMean other_clusters)
      then Dir.low else Dir.high
    if p_value.ltb (1 / 20) then some direction else none

/-- The two nested loops of `cluster_characteristics`: for each cluster id in
`np.unique(labels)` (ascending), the association list of recorded
(column, direction) pairs in column order. -/
def ccCompute (mwu : List ℚ → List ℚ → PVal) (features : DF) :
    List (ℚ × List (String × Dir)) :=
  (uniqueSorted (getCol features "cluster")).map
    (fun c => (c, features.cols.filterMap
      (fun nc => (processColumn mwu features c nc.1).map (fun dir => (nc.1, dir)))))

/-- The DataFrame the loops of `cluster_characteristics` iterate over:
`features = in_features.copy()`, then `features["cluster"] = cluster_labels`
when labels are passed. -/
def featuresOf (in_features : DF) : Option (List ℚ) → DF
  | some cluster_labels => setCol in_features "cluster" cluster_labels
  | none => in_features

/-- Model of `cluster_characteristics(in_features, cluster_labels)` from
`3_analysis/analyze_graph_vs_raw.py`, with `scipy.stats.mannwhitneyu`
abstracted as the oracle `mwu`. -/
def cluster_characteristics (mwu : List ℚ → List ℚ → PVal) (in_features : DF)
    (cluster_labels : Option (List ℚ)) : List (ℚ × List (String × Dir)) :=
  ccCompute mwu (featuresOf in_features cluster_labels)

/-- Lookup of the recorded direction for a (cluster, column) pair in the
result of `cluster_characteristics` (the nested-dict access
`characteristics[cluster][column]`). -/
def lookup2 (r : List (ℚ × List (String × Dir))) (c : ℚ) (col : String) : Option Dir :=
  (alookup c r).bind (alookup col)

/-!
Section: normalization and k-means wrapper (`3_analysis/clustering.py`)

`np.std(feature_matrix, axis=0)` is the population standard deviation, the
square root of the per-column variance. A float entry of the normalized
matrix `(x - mean) / std` is represented symbolically by its numerator
`x - mean` together with the squared denominator `var = std ** 2`, both
rationals; the represented IEEE value is `num / sqrt var`, which is finite
iff `var ≠ 0` (when `var = 0` the float division yields NaN for `num = 0`
and signed infinity otherwise).
-/

/-- Model of `np.mean(feature_matrix, axis=0)` at column `j`. -/
def colMean (F : List (List ℚ)) (j : ℕ) : ℚ :=
  ((F.map (fun r => r.getD j 0)).sum) / (F.length : ℚ)

/-- The per-column population variance, i.e. the square of
`np.std(feature_matrix, axis=0)` at column `j`. -/
def colVar (F : List (List ℚ)) (j : ℕ) : ℚ :=
  ((F.map (fun r => (r.getD j 0 - colMean F j) ^ 2)).sum) / (F.length : ℚ)

/-- One entry of the normalized matrix: the float `num / sqrt var`. -/
structure NormVal where
  num : ℚ
  var : ℚ
deriving DecidableEq

/-- The represented float is finite iff the divisor `std = sqrt var` is
nonzero; for a zero-variance column the entry is NaN or ±Inf. -/
def NormVal.isFiniteB (v : NormVal) : Bool := decide (v.var ≠ 0)

/-- One row of `(feature_matrix - means_cols) / std_cols`, built left to
right starting at column index `j`. -/
def normRow (F : List (List ℚ)) : ℕ → List ℚ → List NormVal
  | _, [] => []
  | j, x :: xs => ⟨x - colMean F j, colVar F j⟩ :: normRow F (j + 1) xs

/-- Computation of `normed_feature_matrix = (feature_matrix - means_cols) / std_cols`:
the unguarded element-wise z-score normalization of lines 7-9 of
`3_analysis/clustering.py`. -/
def normalizeMatrix (F : List (List ℚ)) : List (List NormVal) :=
  F.map (normRow F 0)

/-- The fitted `sklearn.cluster.KMeans` model: its `labels_` attribute and
its `cluster_centers_` attribute (of abstract type `C`). -/
structure KMModel (C : Type) where
  labels : List ℕ
  cluster_centers : C

/-- Model of `normalize_and_cluster(feature_matrix, n_clusters, return_normed)` from
`3_analysis/clustering.py`. The library call
`KMeans(n_clusters=n_clusters, random_state=0).fit(normed_feature_matrix)`
is the oracle `kmeans` applied to the cluster count, the fixed seed `0`,
and the normalized matrix; the function returns `kmeans.labels_`, paired
with the normalized matrix when `return_normed` is set. -/
def normalize_and_cluster {C : Type} (kmeans : ℕ → ℕ → List (List NormVal) → KMModel C)
    (feature_matrix : List (List ℚ)) (n_clusters : ℕ) (return_normed : Bool) :
    List ℕ ⊕ (List ℕ × List (List NormVal)) :=
  let normed_feature_matrix := normalizeMatrix feature_matrix
  let km := kmeans n_clusters 0 normed_feature_matrix
  if return_normed then Sum.inr (km.labels, normed_feature_matrix)
  else Sum.inl km.labels

/-- The label list carried by either return shape of
`normalize_and_cluster`. -/
def resultLabels : List ℕ ⊕ (List ℕ × List (List NormVal)) → List ℕ
  | Sum.inl l => l
  | Sum.inr p => p.1

/-!
Section: chi-square comparison (`3_analysis/plotting.py`)

`scipy.stats.chi2_contingency` on a 2-row table: expected frequencies from
the row/column marginals, a `ValueError` when an expected frequency is zero,
degrees of freedom `cols - 1`, the exact result `(0, 1)` when `dof = 0`,
Yates continuity correction when `dof = 1`, and otherwise the Pearson
statistic with the p-value `sf stat dof` from the chi-square survival
function, abstracted as the oracle `sf`.
-/

/-- Model of `np.sign` on a rational. -/
def qsign (x : ℚ) : ℚ := if x < 0 then -1 else if x = 0 then 0 else 1

/-- Model of `np.abs` on a rational. -/
def qabs (x : ℚ) : ℚ := if x < 0 then -x else x

/-- The two-row contingency table of `print_chisquare` after
`contingency_table[:, np.any(contingency_table, axis=0)]`: the columns
(pairs of counts) with at least one nonzero entry. -/
def buildContingency (occ1 occ2 : List ℚ) : List (ℚ × ℚ) :=
  (occ1.zip occ2).filter (fun p => !(decide (p.1 = 0) && decide (p.2 = 0)))

/-- Sum of the first row of a two-row table stored column-wise. -/
def rowSum1 (t : List (ℚ × ℚ)) : ℚ := (t.map Prod.fst).sum

/-- Sum of the second row. -/
def rowSum2 (t : List (ℚ × ℚ)) : ℚ := (t.map Prod.snd).sum

/-- Expected frequency of the first-row cell in column `p`. -/
def expected1 (t : List (ℚ × ℚ)) (p : ℚ × ℚ) : ℚ :=
  rowSum1 t * (p.1 + p.2) / (rowSum1 t + rowSum2 t)

/-- Expected frequency of the second-row cell in column `p`. -/
def expected2 (t : List (ℚ × ℚ)) (p : ℚ × ℚ) : ℚ :=
  rowSum2 t * (p.1 + p.2) / (rowSum1 t + rowSum2 t)

/-- Result of `scipy.stats.chi2_contingency`: the statistic, the p-value
and the degrees of freedom, or the `ValueError` raised on a zero expected
frequency. -/
inductive Chi2Result
  | ok (stat p : ℚ) (dof : ℤ)
  | expectedZero
deriving DecidableEq

/-- Yates continuity correction (applied by `chi2_contingency` when
`dof = 1` and `correction=True`, the default): move each observed count
toward its expected count by at most 1/2. -/
def yates (o e : ℚ) : ℚ := o + min (1 / 2) (qabs (e - o)) * qsign (e - o)

/-- Degrees of freedom of a 2-row table with `t.length` columns:
`(2 - 1) * (cols - 1)`. -/
def chiDof (t : List (ℚ × ℚ)) : ℤ := (t.length : ℤ) - 1

/-- An observed count, continuity-corrected when `dof = 1`. -/
def chiAdj (t : List (ℚ × ℚ)) (o e : ℚ) : ℚ :=
  if chiDof t = 1 then yates o e else o

/-- The Pearson chi-square statistic `sum((obs - exp) ** 2 / exp)` over both
rows of the table. -/
def chiStat (t : List (ℚ × ℚ)) : ℚ :=
  (t.map (fun p =>
    (chiAdj t p.1 (expected1 t p) - expected1 t p) ^ 2 / expected1 t p +
    (chiAdj t p.2 (expected2 t p) - expected2 t p) ^ 2 / expected2 t p)).sum

/-- Model of `scipy.stats.chi2_contingency(table)` on a 2-row table stored
column-wise, with the chi-square survival function abstracted as `sf`. -/
def chi2_contingency (sf : ℚ → ℤ → ℚ) (t : List (ℚ × ℚ)) : Chi2Result :=
  if t.any (fun p => decide (expected1 t p = 0) || decide (expected2 t p = 0)) then
    Chi2Result.expectedZero
  else if chiDof t = 0 then Chi2Result.ok 0 1 0
  else Chi2Result.ok (chiStat t) (sf (chiStat t) (chiDof t)) (chiDof t)

/-- Model of `print_chisquare(occ1, occ2)` from `3_analysis/plotting.py`: build the
two-row contingency table, drop the columns that are zero in both
distributions, and run the chi-square independence test. -/
def print_chisquare (sf : ℚ → ℤ → ℚ) (occ1 occ2 : List ℚ) : Chi2Result :=
  chi2_contingency sf (buildContingency occ1 occ2)

/-!
Section: heap model for the read-only analyses

Python passes DataFrames and arrays by reference. To state that the
analyses leave their inputs unchanged, the callers' objects live in an
explicit heap of references; `in_features.copy()` allocates a fresh
reference and the pandas column assignment writes through the fresh
reference only.
-/

/-- A Python object the analysed functions receive by reference. -/
inductive PyVal
  | df (d : DF)
  | arr (l : List ℚ)
deriving DecidableEq

/-- The heap: references (object identities) to objects. -/
def Heap := List (ℕ × PyVal)

/-- Dereference. -/
def hGet (σ : Heap) (r : ℕ) : Option PyVal := alookup r σ

/-- In-place update of the object behind a reference. -/
def hSet (σ : Heap) (r : ℕ) (v : PyVal) : Heap :=
  σ.map (fun e => if e.1 = r then (r, v) else e)

/-- A reference not yet used by the heap. -/
def freshRef (σ : Heap) : ℕ := (σ.map Prod.fst).foldr max 0 + 1

/-- The DataFrame behind a reference (the code only passes DataFrames
here; any other value reads as the empty frame). -/
def derefDF (σ : Heap) (r : ℕ) : DF :=
  match hGet σ r with
  | some (PyVal.df d) => d
  | _ => ⟨[]⟩

/-- The array behind a reference. -/
def derefArr (σ : Heap) (r : ℕ) : List ℚ :=
  match hGet σ r with
  | some (PyVal.arr l) => l
  | _ => []

/-- Model of `cluster_characteristics` on the heap: `features = in_features.copy()`
allocates a fresh object holding a copy of the input frame;
`features["cluster"] = cluster_labels` writes through the fresh reference;
the loops then read `features` only. Returns the final heap and the
characteristics mapping. -/
def cluster_characteristics_heap (mwu : List ℚ → List ℚ → PVal) (σ : Heap)
    (inRef : ℕ) (labRef : Option ℕ) : Heap × List (ℚ × List (String × Dir)) :=
  let in_features := derefDF σ inRef
  let fr := freshRef σ
  let σ1 : Heap := (fr, PyVal.df in_features) :: σ
  let σ2 := match labRef with
    | some lr => hSet σ1 fr (PyVal.df (setCol in_features "cluster" (derefArr σ1 lr)))
    | none => σ1
  (σ2, ccCompute mwu (derefDF σ2 fr))

/-- Model of ascending `np.argsort`. -/
def argsortAsc (l : List ℚ) : List ℕ :=
  (List.range l.length).mergeSort (fun i j => decide (l.getD i 0 ≤ l.getD j 0))

/-- Computation `np.flip(np.argsort(x)[-n:])`: indices of the `n` largest values,
largest first. -/
def topIndices (n : ℕ) (l : List ℚ) : List ℕ :=
  let s := argsortAsc l
  (s.drop (s.length - n)).reverse

/-- Model of `get_important_features(features, labels, n_important, method="forest")`
on the heap: fit the abstracted random forest (`imp` maps the feature frame
and label array to `feature_importances_`), rank, and return the top
feature names with their scores. Reads its two references, writes none. -/
def get_important_features_heap (imp : DF → List ℚ → List ℚ) (σ : Heap)
    (fRef lRef : ℕ) (n_important : ℕ) : Heap × (List String × List ℚ) :=
  let features := derefDF σ fRef
  let labels := derefArr σ lRef
  let feature_importances := imp features labels
  let important_feature_inds := topIndices n_important feature_importances
  (σ, (important_feature_inds.map (fun i => (features.cols.map Prod.fst).getD i ""),
       important_feature_inds.map (fun i => feature_importances.getD i 0)))

/-- The occurrence counts `[sum(labels == lab) for lab in occuring_labels]`. -/
def occCounts (labels : List ℚ) (occuring : List ℚ) : List ℚ :=
  occuring.map (fun lab => ((labels.filter (fun x => decide (x = lab))).length : ℚ))

/-- Model of `barplot_clusters(labels1, labels2, ...)` on the heap, restricted to its
data computations (the matplotlib drawing is I/O): compute the occurring
labels, the per-label ratios and unnormalized counts, and run
`print_chisquare` on the unnormalized counts. Reads its two references,
writes none. -/
def barplot_clusters_heap (sf : ℚ → ℤ → ℚ) (σ : Heap) (r1 r2 : ℕ) :
    Heap × (List ℚ × List ℚ × Chi2Result) :=
  let labels1 := derefArr σ r1
  let labels2 := derefArr σ r2
  let occuring_labels := uniqueSorted (labels1 ++ labels2)
  let occ1 := (occCounts labels1 occuring_labels).map (fun c => c / (labels1.length : ℚ))
  let occ2 := (occCounts labels2 occuring_labels).map (fun c => c / (labels2.length : ℚ))
  let occ1_unnormalized := occCounts labels1 occuring_labels
  let occ2_unnormalized := occCounts labels2 occuring_labels
  (σ, (occ1, occ2, print_chisquare sf occ1_unnormalized occ2_unnormalized))

/-!
Section: bounded retry in `draw_smopy_basemap` (`activity_graphs_utils.py`)

The tile fetch `smopy.Map(..., tileserver=..., z=zoom)` either returns a map
or raises `IncompleteRead`; it is abstracted as `fetch`, indexed by the
value of the `attempts` counter at the moment of the call. The `while`
loop is translated as a recursion on `3 - attempts`.
-/

/-- The loop `while attempts < 3`: returns the fetched map (if any), the
final value of `attempts`, and the number of fetch calls performed. -/
def retryLoop {M : Type} (fetch : ℕ → Except Unit M) (attempts : ℕ) :
    Option M × ℕ × ℕ :=
  if _h : attempts < 3 then
    match fetch attempts with
    | Except.ok smap => (some smap, attempts, 1)
    | Except.error _ =>
      let r := retryLoop fetch (attempts + 1)
      (r.1, r.2.1, r.2.2 + 1)
  else (none, attempts, 0)
termination_by 3 - attempts

/-- Outcome of the fetch part of `draw_smopy_basemap`: either a map, or
the `NameError` raised by `print(G.graph['user_id'], e)` on the post-loop
path — in Python 3 the name `e` bound by `except IncompleteRead as e` is
unbound once the handler exits, so that print raises. -/
inductive BasemapOutcome (M : Type)
  | ok (smap : M)
  | nameError
deriving DecidableEq

/-- The fetch part of `draw_smopy_basemap`: run the retry loop from
`attempts = 0`. When the loop exhausted its 3 attempts, the code enters
`if attempts == 3:` and evaluates `print(G.graph['user_id'], e)`, which
raises `NameError` because `e` is unbound after the except clause; the
fallback tileserver-less `smopy.Map` call on the following line is
therefore unreachable. Otherwise the loop broke on a fetched map, which is
used. (An exit with no map at `attempts ≠ 3` cannot happen; in Python it
would be an unbound `smap`, modelled by the same error arm.) The second
component counts the external fetch calls performed. -/
def draw_smopy_basemap {M : Type} (fetch : ℕ → Except Unit M) :
    BasemapOutcome M × ℕ :=
  let r := retryLoop fetch 0
  (if r.2.1 = 3 then BasemapOutcome.nameError
   else
     match r.1 with
     | some smap => BasemapOutcome.ok smap
     | none => BasemapOutcome.nameError,
   r.2.2)

/-!
Section: helper lemmas
-/

theorem map_getD_of_lt {α β : Type} (f : α → β) (l : List α) (i : ℕ) (d : α) (d' : β)
    (hi : i < l.length) : (l.map f).getD i d' = f (l.getD i d) := by
  induction l generalizing i with
  | nil => simp at hi
  | cons x xs ih =>
    cases i with
    | zero => simp
    | succ n => simpa using ih n (by simpa using hi)

theorem normRow_getD (F : List (List ℚ)) (r : List ℚ) (j0 j : ℕ) (hj : j < r.length) :
    (normRow F j0 r).getD j ⟨0, 0⟩ =
      ⟨r.getD j 0 - colMean F (j0 + j), colVar F (j0 + j)⟩ := by
  induction r generalizing j0 j with
  | nil => simp at hj
  | cons x xs ih =>
    cases j with
    | zero => simp [normRow]
    | succ n =>
      have h : j0 + 1 + n = j0 + (n + 1) := by omega
      simp only [normRow, List.getD_cons_succ]
      rw [ih (j0 + 1) n (by simpa using hj), h]

/-- C1: the Normalizer returns `(x - mean) / std` element-wise, with the
per-column mean and (squared) standard deviation taken across all rows; an
entry of a column whose standard deviation is zero is non-finite (NaN or
±Inf), the division being unguarded. -/
theorem C1_normalizer (F : List (List ℚ)) (i j : ℕ) (hi : i < F.length)
    (hj : j < (F.getD i []).length) :
    ((normalizeMatrix F).getD i []).getD j ⟨0, 0⟩ =
      ⟨(F.getD i []).getD j 0 - colMean F j, colVar F j⟩ ∧
    (colVar F j = 0 →
      (((normalizeMatrix F).getD i []).getD j ⟨0, 0⟩).isFiniteB = false) := by
  have h1 : (normalizeMatrix F).getD i [] = normRow F 0 (F.getD i []) :=
    map_getD_of_lt (normRow F 0) F i [] [] hi
  have h2 : (normRow F 0 (F.getD i [])).getD j ⟨0, 0⟩ =
      ⟨(F.getD i []).getD j 0 - colMean F j, colVar F j⟩ := by
    rw [normRow_getD F (F.getD i []) 0 j hj]
    simp
  refine ⟨by rw [h1, h2], fun hv => ?_⟩
  rw [h1, h2]
  simp [NormVal.isFiniteB, hv]

/-- Witness for C1 on the concrete matrix `[[1, 5], [3, 5]]`, whose second
column is constant (standard deviation zero). -/
theorem C1_normalizer_witness :
    ((normalizeMatrix [[1, 5], [3, 5]]).getD 0 []).getD 1 ⟨0, 0⟩ =
      ⟨(([[1, 5], [3, 5]] : List (List ℚ)).getD 0 []).getD 1 0 -
        colMean [[1, 5], [3, 5]] 1, colVar [[1, 5], [3, 5]] 1⟩ ∧
    (colVar [[1, 5], [3, 5]] 1 = 0 →
      (((normalizeMatrix [[1, 5], [3, 5]]).getD 0 []).getD 1 ⟨0, 0⟩).isFiniteB = false) :=
  C1_normalizer [[1, 5], [3, 5]] 0 1 (by decide) (by decide)

/-- C4: under the documented contract of the `sklearn` KMeans fit on the
matrix actually passed (one label per row, each in `[0, k)`),
`normalize_and_cluster` returns exactly `len(F)` labels, each in `[0, k)`;
and because the call fixes `random_state=0`, any second run whose fitted
model agrees at seed `0` on that input yields the identical assignment. -/
theorem C4_clusterer {C : Type} (kmeans : ℕ → ℕ → List (List NormVal) → KMModel C)
    (F : List (List ℚ)) (k : ℕ) (b : Bool)
    (hlen : (kmeans k 0 (normalizeMatrix F)).labels.length = (normalizeMatrix F).length)
    (hrange : ∀ l ∈ (kmeans k 0 (normalizeMatrix F)).labels, l < k) :
    (resultLabels (normalize_and_cluster kmeans F k b)).length = F.length ∧
    (∀ l ∈ resultLabels (normalize_and_cluster kmeans F k b), l < k) ∧
    (∀ (C2 : Type) (kmeans2 : ℕ → ℕ → List (List NormVal) → KMModel C2),
      (kmeans2 k 0 (normalizeMatrix F)).labels = (kmeans k 0 (normalizeMatrix F)).labels →
      resultLabels (normalize_and_cluster kmeans2 F k b) =
        resultLabels (normalize_and_cluster kmeans F k b)) := by
  have hlen' : (kmeans k 0 (normalizeMatrix F)).labels.length = F.length := by
    rw [hlen]; simp [normalizeMatrix]
  cases b with
  | false =>
    refine ⟨hlen', hrange, ?_⟩
    intro C2 kmeans2 h2
    simp [normalize_and_cluster, resultLabels, h2]
  | true =>
    refine ⟨hlen', hrange, ?_⟩
    intro C2 kmeans2 h2
    simp [normalize_and_cluster, resultLabels, h2]

/-- A fitted-model oracle assigning every row to cluster 0, with centroid
attribute `0`. -/
def kmCexA : ℕ → ℕ → List (List NormVal) → KMModel ℕ :=
  fun _ _ M => ⟨M.map (fun _ => 0), 0⟩

/-- The same labels as `kmCexA` but a different centroid attribute. -/
def kmCexB : ℕ → ℕ → List (List NormVal) → KMModel ℕ :=
  fun _ _ M => ⟨M.map (fun _ => 0), 1⟩

/-- A concrete two-row feature matrix. -/
def FCex : List (List ℚ) := [[1], [3]]

/-- Witness for C4 at the concrete input `FCex`, `k = 2`. -/
theorem C4_clusterer_witness :
    (resultLabels (normalize_and_cluster kmCexA FCex 2 false)).length = FCex.length ∧
    (∀ l ∈ resultLabels (normalize_and_cluster kmCexA FCex 2 false), l < 2) ∧
    (∀ (C2 : Type) (kmeans2 : ℕ → ℕ → List (List NormVal) → KMModel C2),
      (kmeans2 2 0 (normalizeMatrix FCex)).labels = (kmCexA 2 0 (normalizeMatrix FCex)).labels →
      resultLabels (normalize_and_cluster kmeans2 FCex 2 false) =
        resultLabels (normalize_and_cluster kmCexA FCex 2 false)) :=
  C4_clusterer kmCexA FCex 2 false (by simp [kmCexA]) (by
    intro l hl
    simp only [kmCexA, List.mem_map] at hl
    obtain ⟨_, _, hl2⟩ := hl
    omega)

/-- Counterexample for C5: two fitted models that differ only in their
centroid attribute are indistinguishable through every output shape of
`normalize_and_cluster` — the interface exposes no centroids, so the claim
that it exposes both the raw fitted centroids and a skip-normalization
option is false. -/
theorem C5_cex :
    (kmCexA 2 0 (normalizeMatrix FCex)).cluster_centers ≠
      (kmCexB 2 0 (normalizeMatrix FCex)).cluster_centers ∧
    normalize_and_cluster kmCexA FCex 2 false = normalize_and_cluster kmCexB FCex 2 false ∧
    normalize_and_cluster kmCexA FCex 2 true = normalize_and_cluster kmCexB FCex 2 true :=
  ⟨by decide, rfl, rfl⟩

/-- C5 amended: the interface returns exactly the labels of the model
fitted, with seed 0, on the *always*-normalized matrix — paired with that
normalized matrix when `return_normed` is set; it exposes no centroids (the
output is unchanged under any model returning the same labels) and has no
option to skip the normalization (the fitted matrix is `normalizeMatrix F`
for every argument combination). -/
theorem C5_amended {C1 C2 : Type} (km1 : ℕ → ℕ → List (List NormVal) → KMModel C1)
    (km2 : ℕ → ℕ → List (List NormVal) → KMModel C2)
    (F : List (List ℚ)) (k : ℕ) (b : Bool)
    (h : (km1 k 0 (normalizeMatrix F)).labels = (km2 k 0 (normalizeMatrix F)).labels) :
    normalize_and_cluster km1 F k b =
      (if b then Sum.inr ((km1 k 0 (normalizeMatrix F)).labels, normalizeMatrix F)
       else Sum.inl (km1 k 0 (normalizeMatrix F)).labels) ∧
    normalize_and_cluster km1 F k b = normalize_and_cluster km2 F k b := by
  cases b with
  | false => exact ⟨rfl, by simp [normalize_and_cluster, h]⟩
  | true => exact ⟨rfl, by simp [normalize_and_cluster, h]⟩

/-- Witness for the amended C5 at the concrete models `kmCexA`, `kmCexB`. -/
theorem C5_amended_witness :
    (normalize_and_cluster kmCexA FCex 2 true =
      (if true then Sum.inr ((kmCexA 2 0 (normalizeMatrix FCex)).labels, normalizeMatrix FCex)
       else Sum.inl (kmCexA 2 0 (normalizeMatrix FCex)).labels)) ∧
    normalize_and_cluster kmCexA FCex 2 true = normalize_and_cluster kmCexB FCex 2 true :=
  C5_amended kmCexA kmCexB FCex 2 true rfl

theorem retryLoop_lt {M : Type} (fetch : ℕ → Except Unit M) (a : ℕ) (h : a < 3) :
    retryLoop fetch a = (match fetch a with
      | Except.ok smap => (some smap, a, 1)
      | Except.error _ =>
        ((retryLoop fetch (a + 1)).1, (retryLoop fetch (a + 1)).2.1,
         (retryLoop fetch (a + 1)).2.2 + 1)) := by
  rw [retryLoop]
  simp only [h, dif_pos]

theorem retryLoop_ge {M : Type} (fetch : ℕ → Except Unit M) (a : ℕ) (h : ¬ a < 3) :
    retryLoop fetch a = (none, a, 0) := by
  rw [retryLoop]
  simp [h]

theorem retryLoop_calls_le {M : Type} (fetch : ℕ → Except Unit M) :
    ∀ n a, 3 - a ≤ n → (retryLoop fetch a).2.2 ≤ 3 - a := by
  intro n
  induction n with
  | zero =>
    intro a ha
    rw [retryLoop_ge fetch a (by omega)]
    simp
  | succ n ih =>
    intro a ha
    by_cases h : a < 3
    · rw [retryLoop_lt fetch a h]
      cases hf : fetch a with
      | ok m => simp; omega
      | error e =>
        have := ih (a + 1) (by omega)
        simp
        omega
    · rw [retryLoop_ge fetch a h]
      simp

theorem retryLoop_all_fail {M : Type} (fetch : ℕ → Except Unit M) :
    ∀ n a, 3 - a ≤ n → a ≤ 3 → (∀ k, a ≤ k → k < 3 → fetch k = Except.error ()) →
    retryLoop fetch a = (none, 3, 3 - a) := by
  intro n
  induction n with
  | zero =>
    intro a ha ha3 _
    have h3 : a = 3 := by omega
    rw [retryLoop_ge fetch a (by omega)]
    simp [h3]
  | succ n ih =>
    intro a ha ha3 hfail
    by_cases h : a < 3
    · rw [retryLoop_lt fetch a h]
      rw [hfail a (le_refl a) h]
      rw [ih (a + 1) (by omega) (by omega) (fun k hk1 hk2 => hfail k (by omega) hk2)]
      simp
      omega
    · have h3 : a = 3 := by omega
      rw [retryLoop_ge fetch a h]
      simp [h3]

theorem retryLoop_success {M : Type} (fetch : ℕ → Except Unit M) :
    ∀ n a k m, 3 - a ≤ n → a ≤ k → k < 3 → fetch k = Except.ok m →
    (∀ j, a ≤ j → j < k → fetch j = Except.error ()) →
    retryLoop fetch a = (some m, k, k + 1 - a) := by
  intro n
  induction n with
  | zero =>
    intro a k m ha hak hk3 _ _
    omega
  | succ n ih =>
    intro a k m ha hak hk3 hok hfail
    have h : a < 3 := by omega
    rw [retryLoop_lt fetch a h]
    by_cases hka : a = k
    · subst hka
      rw [hok]
      have h1 : a + 1 - a = 1 := by omega
      rw [h1]
    · have hfa : fetch a = Except.error () := hfail a (le_refl a) (by omega)
      rw [hfa]
      rw [ih (a + 1) k m (by omega) (by omega) hk3 hok
        (fun j hj1 hj2 => hfail j (by omega) hj2)]
      simp
      omega

/-- C9: the external tile fetch of `draw_smopy_basemap` is attempted at
most 3 times, and the loop stops at the first success, returning the
fetched map after `k + 1` attempts when attempt `k` is the first to
succeed; but after 3 failed attempts the function raises `NameError` at
`print(G.graph['user_id'], e)` (performing no further fetch), so control
never reaches the fallback `smopy.Map` call — the claim's fallback clause
fails on the code, whose unreachable fallback line shows it as the
intent. -/
theorem C9_retry_bug {M : Type} (fetch : ℕ → Except Unit M) :
    (draw_smopy_basemap fetch).2 ≤ 3 ∧
    ((∀ k, k < 3 → fetch k = Except.error ()) →
      draw_smopy_basemap fetch = (BasemapOutcome.nameError, 3)) ∧
    (∀ k m, k < 3 → fetch k = Except.ok m →
      (∀ j, j < k → fetch j = Except.error ()) →
      draw_smopy_basemap fetch = (BasemapOutcome.ok m, k + 1)) := by
  refine ⟨?_, ?_, ?_⟩
  · have := retryLoop_calls_le fetch 3 0 (by omega)
    simpa [draw_smopy_basemap] using this
  · intro hfail
    have h := retryLoop_all_fail fetch 3 0 (by omega) (by omega)
      (fun k _ hk => hfail k hk)
    simp [draw_smopy_basemap, h]
  · intro k m hk3 hok hfail
    have h := retryLoop_success fetch 3 0 k m (by omega) (by omega) hk3 hok
      (fun j _ hj => hfail j hj)
    have hkne : k ≠ 3 := by omega
    simp [draw_smopy_basemap, h, hkne]

/-- Witness for C9 at the failing input: a fetch raising `IncompleteRead`
on all 3 attempts makes the basemap helper perform exactly 3 fetch calls
and then raise `NameError` instead of building the fallback map; a fetch
succeeding on attempt 2 stops the loop with the fetched map. -/
theorem C9_retry_bug_witness :
    draw_smopy_basemap (M := ℕ) (fun _ => Except.error ()) =
      (BasemapOutcome.nameError, 3) ∧
    draw_smopy_basemap (fun k => if k = 2 then Except.ok 7 else Except.error ()) =
      (BasemapOutcome.ok 7, 3) :=
  ⟨(C9_retry_bug (M := ℕ) (fun _ => Except.error ())).2.1 (fun _ _ => rfl),
   (C9_retry_bug (fun k => if k = 2 then Except.ok 7 else Except.error ())).2.2 2 7
     (by omega) (by simp)
     (by
       intro j hj
       interval_cases j <;> simp)⟩

theorem mem_inner_proc {proc : String → Option Dir} {cols : List (String × List ℚ)}
    {col : String} {d : Dir}
    (h : (col, d) ∈ cols.filterMap
      (fun nc => (proc nc.1).map (fun dir => (nc.1, dir)))) :
    proc col = some d := by
  rcases List.mem_filterMap.mp h with ⟨nc, _, heq⟩
  cases hp : proc nc.1 with
  | none => rw [hp] at heq; simp at heq
  | some dir =>
    rw [hp] at heq
    simp only [Option.map_some', Option.some.injEq, Prod.mk.injEq] at heq
    rw [← heq.1, hp, heq.2]

theorem mem_ccCompute {mwu : List ℚ → List ℚ → PVal} {feat : DF} {c : ℚ}
    {m : List (String × Dir)} (h : (c, m) ∈ ccCompute mwu feat) :
    m = feat.cols.filterMap
      (fun nc => (processColumn mwu feat c nc.1).map (fun dir => (nc.1, dir))) := by
  rcases List.mem_map.mp h with ⟨c', _, heq⟩
  have hc : c' = c := congrArg Prod.fst heq
  have hm := congrArg Prod.snd heq
  simp only at hm
  rw [← hm, hc]

theorem processColumn_some {mwu : List ℚ → List ℚ → PVal} {feat : DF} {c : ℚ}
    {col : String} {d : Dir} (h : processColumn mwu feat c col = some d) :
    col ≠ "cluster" ∧ excludedCol col = false ∧
    (mwu (thisVals feat c col) (otherVals feat c col)).ltb (1 / 20) = true ∧
    d = (if floatLt (floatMean (thisVals feat c col)) (floatMean (otherVals feat c col))
         then Dir.low else Dir.high) := by
  by_cases h1 : col = "cluster"
  · rw [processColumn, if_pos h1] at h; exact absurd h (by simp)
  · by_cases h2 : excludedCol col = true
    · rw [processColumn, if_neg h1, if_pos h2] at h; exact absurd h (by simp)
    · rw [processColumn, if_neg h1, if_neg h2] at h
      by_cases h3 : (mwu (thisVals feat c col) (otherVals feat c col)).ltb (1 / 20) = true
      · rw [if_pos h3] at h
        refine ⟨h1, by simpa using h2, h3, ?_⟩
        exact (Option.some_inj.mp h).symm
      · rw [if_neg h3] at h
        exact absurd h (by simp)

/-- C3: the Cluster Characteristics mapping never assigns both "high" and
"low" to the same (cluster, feature) pair, and every recorded feature has a
Mann-Whitney p-value strictly below 0.05 against the rest. -/
theorem C3_characteristics_invariant (mwu : List ℚ → List ℚ → PVal) (inF : DF)
    (ls : Option (List ℚ)) (c : ℚ) (m : List (String × Dir)) (col : String)
    (hm : (c, m) ∈ cluster_characteristics mwu inF ls) :
    ¬((col, Dir.high) ∈ m ∧ (col, Dir.low) ∈ m) ∧
    (∀ d, (col, d) ∈ m →
      (mwu (thisVals (featuresOf inF ls) c col)
        (otherVals (featuresOf inF ls) c col)).ltb (1 / 20) = true) := by
  have hmm := mem_ccCompute hm
  constructor
  · rintro ⟨hh, hl⟩
    rw [hmm] at hh hl
    have h1 := mem_inner_proc hh
    have h2 := mem_inner_proc hl
    rw [h1] at h2
    simp at h2
  · intro d hd
    rw [hmm] at hd
    exact (processColumn_some (mem_inner_proc hd)).2.2.1

/-- The constant 0.01 p-value oracle. -/
def mwuCex : List ℚ → List ℚ → PVal := fun _ _ => PVal.val (1 / 100)

/-- A one-feature table on two rows. -/
def dfSmall : DF := ⟨[("f", [1, 2])]⟩

set_option maxHeartbeats 2000000 in
theorem ccSmall_eval :
    cluster_characteristics mwuCex dfSmall (some [0, 1]) =
      [(0, [("f", Dir.low)]), (1, [("f", Dir.high)])] := by
  simp [cluster_characteristics, ccCompute, featuresOf, setCol, getCol, alookup,
    uniqueSorted, insertUnique, processColumn, thisVals, otherVals, excludedCol, strHasSub,
    hasSubL, strStartsWith, floatMean, floatLt, PVal.ltb, mwuCex, dfSmall, List.contains,
    List.filterMap_cons, List.filterMap_nil]
  all_goals norm_num

/-- Witness for C3 at a concrete table, labels and oracle. -/
theorem C3_characteristics_invariant_witness :
    ¬(("f", Dir.high) ∈ [("f", Dir.low)] ∧ ("f", Dir.low) ∈ [("f", Dir.low)]) ∧
    (∀ d, ("f", d) ∈ [("f", Dir.low)] →
      (mwuCex (thisVals (featuresOf dfSmall (some [0, 1])) 0 "f")
        (otherVals (featuresOf dfSmall (some [0, 1])) 0 "f")).ltb (1 / 20) = true) :=
  C3_characteristics_invariant mwuCex dfSmall (some [0, 1]) 0 [("f", Dir.low)] "f"
    (by rw [ccSmall_eval]; exact List.mem_cons_self _ _)

theorem alookup_map_self {β : Type} (us : List ℚ) (g : ℚ → β) (c : ℚ) (hc : c ∈ us) :
    alookup c (us.map (fun x => (x, g x))) = some (g c) := by
  induction us with
  | nil => simp at hc
  | cons u ut ih =>
    by_cases h : u = c
    · subst h
      simp [alookup]
    · rcases List.mem_cons.mp hc with h' | h'
      · exact absurd h'.symm h
      · simpa [alookup, h] using ih h'

theorem alookup_inner_not_mem {proc : String → Option Dir}
    {cols : List (String × List ℚ)} {col : String}
    (h : col ∉ cols.map Prod.fst) :
    alookup col (cols.filterMap
      (fun nc => (proc nc.1).map (fun dir => (nc.1, dir)))) = none := by
  induction cols with
  | nil => rfl
  | cons nc rest ih =>
    have hne : nc.1 ≠ col := fun he => h (by simp [he])
    have hrest : col ∉ rest.map Prod.fst := fun hm => h (by simp [hm])
    cases hp : proc nc.1 with
    | none => simpa [List.filterMap_cons, hp] using ih hrest
    | some dir =>
      simp only [List.filterMap_cons, hp, Option.map_some', alookup]
      rw [if_neg hne]
      exact ih hrest

theorem alookup_inner {proc : String → Option Dir} {cols : List (String × List ℚ)}
    {col : String} (hnd : (cols.map Prod.fst).Nodup) (hcol : col ∈ cols.map Prod.fst) :
    alookup col (cols.filterMap
      (fun nc => (proc nc.1).map (fun dir => (nc.1, dir)))) = proc col := by
  induction cols with
  | nil => simp at hcol
  | cons nc rest ih =>
    have hnd' : (rest.map Prod.fst).Nodup := (List.nodup_cons.mp hnd).2
    by_cases h : nc.1 = col
    · have hnotin : col ∉ rest.map Prod.fst := h ▸ (List.nodup_cons.mp hnd).1
      cases hp : proc nc.1 with
      | none =>
        rw [← h, hp]
        simpa [List.filterMap_cons, hp] using alookup_inner_not_mem (h ▸ hnotin)
      | some dir =>
        simp only [List.filterMap_cons, hp, Option.map_some', alookup]
        rw [if_pos h, ← h, hp]
    · have hcol' : col ∈ rest.map Prod.fst := by
        rw [List.map_cons] at hcol
        rcases List.mem_cons.mp hcol with h' | h'
        · exact absurd h'.symm h
        · exact h'
      cases hp : proc nc.1 with
      | none => simpa [List.filterMap_cons, hp] using ih hnd' hcol'
      | some dir =>
        simp only [List.filterMap_cons, hp, Option.map_some', alookup]
        rw [if_neg h]
        exact ih hnd' hcol'

/-- C2 amended: for every cluster id occurring in the labels and every
feature column that is neither the appended `cluster` column nor excluded
by the waiting-time filter, the per-cluster step runs the Mann-Whitney U
test of the in-cluster values against the out-of-cluster values, tags the
feature "low" exactly when the in-cluster mean is strictly below the
out-of-cluster mean ("high" otherwise, ties included), and records the tag
in the mapping if and only if the test's p-value is strictly below 0.05. -/
theorem C2_amended_characterization (mwu : List ℚ → List ℚ → PVal) (inF : DF)
    (ls : List ℚ) (c : ℚ) (col : String)
    (hnd : ((featuresOf inF (some ls)).cols.map Prod.fst).Nodup)
    (hc : c ∈ uniqueSorted (getCol (featuresOf inF (some ls)) "cluster"))
    (hcol : col ∈ (featuresOf inF (some ls)).cols.map Prod.fst)
    (hncl : col ≠ "cluster") (hnex : excludedCol col = false) :
    lookup2 (cluster_characteristics mwu inF (some ls)) c col =
      (if (mwu (thisVals (featuresOf inF (some ls)) c col)
            (otherVals (featuresOf inF (some ls)) c col)).ltb (1 / 20)
       then some (if floatLt (floatMean (thisVals (featuresOf inF (some ls)) c col))
                    (floatMean (otherVals (featuresOf inF (some ls)) c col))
                  then Dir.low else Dir.high)
       else none) := by
  unfold cluster_characteristics lookup2 ccCompute
  rw [alookup_map_self _ _ _ hc]
  rw [Option.some_bind]
  rw [alookup_inner hnd hcol]
  rw [processColumn, if_neg hncl, if_neg (by simp [hnex])]

/-- A one-feature table on four rows whose feature has equal means inside
and outside cluster 0 under the labels `[0, 0, 1, 1]`. -/
def dfCex : DF := ⟨[("f", [4, 4, 0, 8])]⟩

set_option maxHeartbeats 2000000 in
/-- Counterexample for C2: at a tie of the in-cluster and out-of-cluster
means (both 4) with a significant p-value, the code records "high"
(`direction = "low" if mean_this < mean_other else "high"`), whereas the
claim mandates "low" for the tie case. -/
theorem C2_cex :
    floatMean (thisVals (featuresOf dfCex (some [0, 0, 1, 1])) 0 "f") =
      floatMean (otherVals (featuresOf dfCex (some [0, 0, 1, 1])) 0 "f") ∧
    (mwuCex (thisVals (featuresOf dfCex (some [0, 0, 1, 1])) 0 "f")
      (otherVals (featuresOf dfCex (some [0, 0, 1, 1])) 0 "f")).ltb (1 / 20) = true ∧
    lookup2 (cluster_characteristics mwuCex dfCex (some [0, 0, 1, 1])) 0 "f" =
      some Dir.high := by
  refine ⟨?_, ?_, ?_⟩
  · simp [featuresOf, setCol, getCol, alookup, thisVals, otherVals, floatMean, dfCex,
      List.contains, List.filterMap_cons, List.filterMap_nil]
    all_goals norm_num
  · simp [PVal.ltb, mwuCex]
    all_goals norm_num
  · simp [lookup2, cluster_characteristics, ccCompute, featuresOf, setCol, getCol, alookup,
      uniqueSorted, insertUnique, processColumn, thisVals, otherVals, excludedCol, strHasSub,
      hasSubL, strStartsWith, floatMean, floatLt, PVal.ltb, mwuCex, dfCex, List.contains,
      List.filterMap_cons, List.filterMap_nil]
    all_goals norm_num [alookup]

/-- Witness for the amended C2 at a concrete table, labels and oracle. -/
theorem C2_amended_characterization_witness :
    lookup2 (cluster_characteristics mwuCex dfSmall (some [0, 1])) 0 "f" =
      (if (mwuCex (thisVals (featuresOf dfSmall (some [0, 1])) 0 "f")
            (otherVals (featuresOf dfSmall (some [0, 1])) 0 "f")).ltb (1 / 20)
       then some (if floatLt (floatMean (thisVals (featuresOf dfSmall (some [0, 1])) 0 "f"))
                    (floatMean (otherVals (featuresOf dfSmall (some [0, 1])) 0 "f"))
                  then Dir.low else Dir.high)
       else none) :=
  C2_amended_characterization mwuCex dfSmall [0, 1] 0 "f"
    (by decide) (by decide) (by decide) (by decide) (by decide)

/-- C7: when a feature's in-cluster and out-of-cluster samples are
identical and the Mann-Whitney U test therefore yields an undefined (NaN)
p-value, the NaN comparison `p_value < 0.05` is False, so the feature is
simply omitted from the characteristics mapping for that cluster — no
error path exists. -/
theorem C7_nan_omitted (mwu : List ℚ → List ℚ → PVal) (inF : DF)
    (ls : Option (List ℚ)) (c : ℚ) (col : String) (m : List (String × Dir)) (d : Dir)
    (hid : thisVals (featuresOf inF ls) c col = otherVals (featuresOf inF ls) c col)
    (hnan : mwu (thisVals (featuresOf inF ls) c col)
      (otherVals (featuresOf inF ls) c col) = PVal.nan)
    (hm : (c, m) ∈ cluster_characteristics mwu inF ls) :
    (col, d) ∉ m := by
  intro hcd
  rw [mem_ccCompute hm] at hcd
  have hp := processColumn_some (mem_inner_proc hcd)
  rw [hnan] at hp
  exact absurd hp.2.2.1 (by simp [PVal.ltb])

/-- A Mann-Whitney oracle returning NaN on identical samples. -/
def mwuNan : List ℚ → List ℚ → PVal :=
  fun a b => if a = b then PVal.nan else PVal.val (1 / 100)

/-- A table whose single feature is constant, so its in-cluster and
out-of-cluster samples coincide. -/
def dfConst : DF := ⟨[("g", [5, 5])]⟩

/-- Witness for C7 at a concrete table whose feature has identical values
inside and outside cluster 0. -/
theorem C7_nan_omitted_witness : ("g", Dir.high) ∉ ([] : List (String × Dir)) :=
  C7_nan_omitted mwuNan dfConst (some [0, 1]) 0 "g" [] Dir.high
    (by decide) (by decide) (by decide)

/-- C10: every feature whose name contains the substring `waiting_time`,
other than `waiting_time_mean` itself, is skipped before testing and can
never appear in the characteristics mapping, whatever its values. -/
theorem C10_waiting_time_skipped (mwu : List ℚ → List ℚ → PVal) (inF : DF)
    (ls : Option (List ℚ)) (c : ℚ) (col : String) (m : List (String × Dir)) (d : Dir)
    (hsub : strHasSub col "waiting_time" = true)
    (hne : col ≠ "waiting_time_mean")
    (hm : (c, m) ∈ cluster_characteristics mwu inF ls) :
    (col, d) ∉ m := by
  intro hcd
  rw [mem_ccCompute hm] at hcd
  have hp := processColumn_some (mem_inner_proc hcd)
  have : excludedCol col = true := by simp [excludedCol, hsub, hne]
  rw [this] at hp
  exact absurd hp.2.1 (by simp)

/-- A table whose single feature is an excluded waiting-time column. -/
def dfWt : DF := ⟨[("waiting_time_std", [1, 2])]⟩

/-- Witness for C10 at a concrete table with a `waiting_time_std` column. -/
theorem C10_waiting_time_skipped_witness :
    ("waiting_time_std", Dir.high) ∉ ([] : List (String × Dir)) :=
  C10_waiting_time_skipped mwuCex dfWt (some [0, 1]) 0 "waiting_time_std" [] Dir.high
    (by decide) (by decide) (by decide)

theorem mem_zip_self {α : Type} {l : List α} {p : α × α} (h : p ∈ l.zip l) :
    p.1 = p.2 ∧ p.1 ∈ l := by
  induction l with
  | nil => simp at h
  | cons a t ih =>
    rw [List.zip_cons_cons] at h
    rcases List.mem_cons.mp h with h' | h'
    · subst h'
      exact ⟨rfl, List.mem_cons_self _ _⟩
    · exact ⟨(ih h').1, List.mem_cons_of_mem _ (ih h').2⟩

theorem zip_self_mem {α : Type} {l : List α} {x : α} (h : x ∈ l) : (x, x) ∈ l.zip l := by
  induction l with
  | nil => simp at h
  | cons a t ih =>
    rw [List.zip_cons_cons]
    rcases List.mem_cons.mp h with h' | h'
    · subst h'
      exact List.mem_cons_self _ _
    · exact List.mem_cons_of_mem _ (ih h')

theorem mem_buildContingency_self {occ : List ℚ} {p : ℚ × ℚ}
    (h : p ∈ buildContingency occ occ) : p.1 = p.2 ∧ p.1 ∈ occ ∧ p.1 ≠ 0 := by
  rcases List.mem_filter.mp h with ⟨hz, hp⟩
  obtain ⟨h12, h1⟩ := mem_zip_self hz
  refine ⟨h12, h1, ?_⟩
  intro h0
  rw [← h12, h0] at hp
  simp at hp

theorem rowSums_eq {occ : List ℚ} :
    rowSum1 (buildContingency occ occ) = rowSum2 (buildContingency occ occ) := by
  unfold rowSum1 rowSum2
  congr 1
  apply List.map_congr_left
  intro p hp
  exact (mem_buildContingency_self hp).1

theorem sum_pos_of_mem_pos {l : List ℚ} {x : ℚ} (hnn : ∀ y ∈ l, 0 ≤ y) (hx : x ∈ l)
    (hpos : 0 < x) : 0 < l.sum := by
  induction l with
  | nil => simp at hx
  | cons a t ih =>
    rw [List.sum_cons]
    rcases List.mem_cons.mp hx with h' | h'
    · subst h'
      have := List.sum_nonneg (fun y hy => hnn y (List.mem_cons_of_mem _ hy))
      linarith
    · have ha := hnn a (List.mem_cons_self _ _)
      have := ih (fun y hy => hnn y (List.mem_cons_of_mem _ hy)) h'
      linarith

theorem rowSum1_pos {occ : List ℚ} (hnn : ∀ x ∈ occ, 0 ≤ x) (hex : ∃ x ∈ occ, x ≠ 0) :
    0 < rowSum1 (buildContingency occ occ) := by
  obtain ⟨x, hx, hx0⟩ := hex
  have hxpos : 0 < x := lt_of_le_of_ne (hnn x hx) (Ne.symm hx0)
  have hmem : (x, x) ∈ buildContingency occ occ := by
    apply List.mem_filter.mpr
    exact ⟨zip_self_mem hx, by simp [hx0]⟩
  have hx1 : x ∈ (buildContingency occ occ).map Prod.fst :=
    List.mem_map.mpr ⟨(x, x), hmem, rfl⟩
  refine sum_pos_of_mem_pos ?_ hx1 hxpos
  intro y hy
  rcases List.mem_map.mp hy with ⟨p, hp, rfl⟩
  exact hnn _ (mem_buildContingency_self hp).2.1

theorem expected_eq_self {occ : List ℚ} (hnn : ∀ x ∈ occ, 0 ≤ x)
    (hex : ∃ x ∈ occ, x ≠ 0) {p : ℚ × ℚ} (hp : p ∈ buildContingency occ occ) :
    expected1 (buildContingency occ occ) p = p.1 ∧
    expected2 (buildContingency occ occ) p = p.2 := by
  have h12 := (mem_buildContingency_self hp).1
  have hS : 0 < rowSum1 (buildContingency occ occ) := rowSum1_pos hnn hex
  have hRR : rowSum2 (buildContingency occ occ) = rowSum1 (buildContingency occ occ) :=
    rowSums_eq.symm
  constructor
  · unfold expected1
    rw [← h12, hRR, div_eq_iff (by linarith)]
    ring
  · unfold expected2
    rw [← h12, hRR, div_eq_iff (by linarith)]
    ring

theorem yates_self (o : ℚ) : yates o o = o := by
  simp [yates, qabs, qsign]

/-- C6: the chi-square comparison builds a two-row contingency table,
removes exactly the category columns whose count is zero in both
distributions before testing, and runs the chi-square independence test on
the remainder; for two identical (nonempty, nonnegative) frequency
distributions the statistic is 0 and the reported p-value equals 1. -/
theorem C6_chisquare (sf : ℚ → ℤ → ℚ) (occ1 occ2 occ : List ℚ)
    (hsf : ∀ d : ℤ, 1 ≤ d → sf 0 d = 1)
    (hnn : ∀ x ∈ occ, 0 ≤ x) (hex : ∃ x ∈ occ, x ≠ 0) :
    (∀ p ∈ buildContingency occ1 occ2, ¬(p.1 = 0 ∧ p.2 = 0)) ∧
    (∀ p ∈ occ1.zip occ2, ¬(p.1 = 0 ∧ p.2 = 0) → p ∈ buildContingency occ1 occ2) ∧
    print_chisquare sf occ occ =
      Chi2Result.ok 0 1 (((buildContingency occ occ).length : ℤ) - 1) := by
  refine ⟨?_, ?_, ?_⟩
  · intro p hp
    have hf := (List.mem_filter.mp hp).2
    rintro ⟨h1, h2⟩
    simp [h1, h2] at hf
  · intro p hp hnz
    apply List.mem_filter.mpr
    refine ⟨hp, ?_⟩
    by_cases h1 : p.1 = 0
    · by_cases h2 : p.2 = 0
      · exact absurd ⟨h1, h2⟩ hnz
      · simp [h1, h2]
    · simp [h1]
  · have hexp : ∀ p ∈ buildContingency occ occ,
        expected1 (buildContingency occ occ) p = p.1 ∧
        expected2 (buildContingency occ occ) p = p.2 :=
      fun p hp => expected_eq_self hnn hex hp
    have hguard : ((buildContingency occ occ).any
        (fun p => decide (expected1 (buildContingency occ occ) p = 0)
          || decide (expected2 (buildContingency occ occ) p = 0))) = false := by
      rw [List.any_eq_false]
      intro p hp
      obtain ⟨he1, he2⟩ := hexp p hp
      obtain ⟨h12, _, hne⟩ := mem_buildContingency_self hp
      simp [he1, he2, hne, ← h12]
    have hstat : chiStat (buildContingency occ occ) = 0 := by
      apply List.sum_eq_zero
      intro y hy
      rcases List.mem_map.mp hy with ⟨p, hp, rfl⟩
      obtain ⟨he1, he2⟩ := hexp p hp
      rw [he1, he2]
      unfold chiAdj
      by_cases hd : chiDof (buildContingency occ occ) = 1
      · rw [if_pos hd, if_pos hd, yates_self, yates_self]
        ring
      · rw [if_neg hd, if_neg hd]
        ring
    unfold print_chisquare chi2_contingency
    rw [if_neg (by simp [hguard])]
    by_cases hd0 : chiDof (buildContingency occ occ) = 0
    · rw [if_pos hd0]
      unfold chiDof at hd0
      rw [← hd0]
    · rw [if_neg hd0, hstat]
      have hlen : 1 ≤ (buildContingency occ occ).length := by
        obtain ⟨x, hx, hx0⟩ := hex
        have hmem : (x, x) ∈ buildContingency occ occ :=
          List.mem_filter.mpr ⟨zip_self_mem hx, by simp [hx0]⟩
        exact List.length_pos.mpr (List.ne_nil_of_mem hmem)
      have hd1 : 1 ≤ chiDof (buildContingency occ occ) := by
        unfold chiDof at hd0 ⊢
        omega
      rw [hsf _ hd1]
      rfl

/-- Witness for C6 on the identical distributions `[2, 3]` (and the pair
`[1, 0]`, `[0, 2]` for the zero-column-dropping conjuncts). -/
theorem C6_chisquare_witness :
    (∀ p ∈ buildContingency [1, 0] [0, 2], ¬(p.1 = 0 ∧ p.2 = 0)) ∧
    (∀ p ∈ ([1, 0] : List ℚ).zip [0, 2], ¬(p.1 = 0 ∧ p.2 = 0) →
      p ∈ buildContingency [1, 0] [0, 2]) ∧
    print_chisquare (fun _ _ => 1) [2, 3] [2, 3] =
      Chi2Result.ok 0 1 (((buildContingency [2, 3] [2, 3]).length : ℤ) - 1) :=
  C6_chisquare (fun _ _ => 1) [1, 0] [0, 2] [2, 3] (fun _ _ => rfl)
    (by
      intro x hx
      rcases List.mem_cons.mp hx with h | h
      · rw [h]; norm_num
      · rcases List.mem_cons.mp h with h' | h'
        · rw [h']; norm_num
        · simp at h')
    ⟨2, by simp, by norm_num⟩

theorem alookup_mem_keys {β : Type} {σ : List (ℕ × β)} {r : ℕ} {v : β}
    (h : alookup r σ = some v) : r ∈ σ.map Prod.fst := by
  induction σ with
  | nil => simp [alookup] at h
  | cons e t ih =>
    rw [alookup] at h
    by_cases he : e.1 = r
    · simp [he]
    · rw [if_neg ?_] at h
      · exact List.mem_cons_of_mem _ (ih h)
      · exact he

theorem le_foldr_max {l : List ℕ} {x : ℕ} (h : x ∈ l) : x ≤ l.foldr max 0 := by
  induction l with
  | nil => simp at h
  | cons a t ih =>
    rcases List.mem_cons.mp h with h' | h'
    · subst h'
      exact le_max_left _ _
    · exact le_trans (ih h') (le_max_right _ _)

theorem hGet_lt_freshRef {σ : Heap} {r : ℕ} {v : PyVal} (h : hGet σ r = some v) :
    r < freshRef σ := by
  have := le_foldr_max (alookup_mem_keys h)
  unfold freshRef
  omega

theorem hGet_hSet_ne (σ : Heap) (r r' : ℕ) (v : PyVal) (h : r ≠ r') :
    hGet (hSet σ r' v) r = hGet σ r := by
  induction σ with
  | nil => rfl
  | cons e t ih =>
    show alookup r ((if e.1 = r' then (r', v) else e) :: hSet t r' v) = alookup r (e :: t)
    by_cases he : e.1 = r'
    · rw [if_pos he]
      show (if r' = r then some v else alookup r (hSet t r' v)) = alookup r (e :: t)
      rw [if_neg (Ne.symm h)]
      have hrhs : alookup r (e :: t) = alookup r t := by
        show (if e.1 = r then some e.2 else alookup r t) = alookup r t
        rw [if_neg (by rw [he]; exact Ne.symm h)]
      rw [hrhs]
      exact ih
    · rw [if_neg he]
      show (if e.1 = r then some e.2 else alookup r (hSet t r' v)) =
        (if e.1 = r then some e.2 else alookup r t)
      by_cases her : e.1 = r
      · rw [if_pos her, if_pos her]
      · rw [if_neg her, if_neg her]
        exact ih

/-- C8: the explainer and scorer analyses leave every pre-existing heap
object — in particular their input feature tables and label arrays —
unchanged: `cluster_characteristics` copies its input frame and writes the
`cluster` column only through the fresh copy's reference, and the
feature-importance ranking and the label-distribution comparison perform
no write at all. -/
theorem C8_inputs_unchanged (mwu : List ℚ → List ℚ → PVal)
    (imp : DF → List ℚ → List ℚ) (sf : ℚ → ℤ → ℚ) (σ : Heap)
    (inRef : ℕ) (labRef : Option ℕ) (fRef lRef n r1 r2 : ℕ) (r : ℕ) (v : PyVal)
    (h : hGet σ r = some v) :
    hGet (cluster_characteristics_heap mwu σ inRef labRef).1 r = some v ∧
    (get_important_features_heap imp σ fRef lRef n).1 = σ ∧
    (barplot_clusters_heap sf σ r1 r2).1 = σ := by
  refine ⟨?_, rfl, rfl⟩
  have hfr : r ≠ freshRef σ := Nat.ne_of_lt (hGet_lt_freshRef h)
  have h1 : hGet ((freshRef σ, PyVal.df (derefDF σ inRef)) :: σ) r = some v := by
    show (if freshRef σ = r then _ else hGet σ r) = some v
    rw [if_neg (Ne.symm hfr)]
    exact h
  cases labRef with
  | none => exact h1
  | some lr =>
    show hGet (hSet ((freshRef σ, PyVal.df (derefDF σ inRef)) :: σ) (freshRef σ) _) r = some v
    rw [hGet_hSet_ne _ _ _ _ hfr]
    exact h1

/-- A concrete two-object heap: a feature table and a label array. -/
def heapCex : Heap := [(1, PyVal.df dfSmall), (2, PyVal.arr [0, 1])]

/-- Witness for C8 on the concrete heap `heapCex`. -/
theorem C8_inputs_unchanged_witness :
    hGet (cluster_characteristics_heap mwuCex heapCex 1 (some 2)).1 1 =
      some (PyVal.df dfSmall) ∧
    (get_important_features_heap (fun _ _ => []) heapCex 1 2 4).1 = heapCex ∧
    (barplot_clusters_heap (fun _ _ => 1) heapCex 2 2).1 = heapCex :=
  C8_inputs_unchanged mwuCex (fun _ _ => []) (fun _ _ => 1) heapCex 1 (some 2)
    1 2 4 2 2 1 (PyVal.df dfSmall) (by rfl)
